import Mathlib

/-!
Shallow embedding of the frontier-detection search of
`src/explore/src/frontier_search.cpp` (namespace `frontier_exploration`),
together with proofs about its behaviour.

The two breadth-first searches (the grid-wide discovery search of
`FrontierSearch::searchFrom` and the per-frontier region growth of
`FrontierSearch::buildNewFrontier`) are embedded as fuel-indexed recursive
functions over explicit state; the fuel `ncells + 2` is proved sufficient, so
fuel exhaustion (`none`) never occurs.  Machine doubles are modelled as
rationals; the IEEE `+infinity` used to initialise `Frontier::min_distance` is
modelled as `Option ℚ` with `none` standing for `+infinity`.

External collaborators that the core only calls through a narrow interface
(the nav2 costmap's coordinate conversions, the floating-point Euclidean
distance, the quaternion yaw / angular-difference computations, and the
nearest-free-cell finder of `costmap_tools.h`, which is not part of the given
sources) are carried as function-valued fields of the `Env` structure.
-/

namespace FrontierExploration

/-- Cost value of a free cell (`nav2_costmap_2d::FREE_SPACE`). -/
def FREE_SPACE : ℕ := 0

/-- Cost value of a lethal obstacle cell (`nav2_costmap_2d::LETHAL_OBSTACLE`). -/
def LETHAL_OBSTACLE : ℕ := 254

/-- Cost value of an unknown cell (`nav2_costmap_2d::NO_INFORMATION`). -/
def NO_INFORMATION : ℕ := 255

/-- A 2D world-space coordinate (`geometry_msgs::msg::Point`, z unused). -/
structure Point where
  x : ℚ
  y : ℚ
deriving DecidableEq, Repr

/-- The robot pose handed to `searchFrom`: planar position plus a heading
(the quaternion of `geometry_msgs::msg::Pose` is modelled by its yaw). -/
structure Pose where
  x : ℚ
  y : ℚ
  heading : ℚ
deriving DecidableEq, Repr

/-- Output record of the search (struct `Frontier` of `frontier_search.h`,
as described by the data model of the spec).  `min_distance` is a double
initialised to `+infinity` in the source; `none` models `+infinity`.
`cost` is unset (`none`) until `searchFrom` assigns it. -/
structure Frontier where
  points : List Point
  size : ℕ
  initial : Point
  middle : Point
  centroid : Point
  min_distance : Option ℚ
  orientation : ℚ
  angular_distance : ℚ
  cost : Option ℚ
deriving DecidableEq, Repr

/-- The environment of one search call: the borrowed read-only costmap view
(`map`, `size_x`, `size_y`, `resolution`), the five configuration scalars of
`FrontierSearch`, and the external collaborators as abstract functions.

`mapToWorld`/`worldToMap` model the nav2 `Costmap2D` coordinate conversions
(out of scope for the core, used only through this interface).
`dist` models `std::sqrt(std::pow(px - wx, 2) + std::pow(py - wy, 2))`,
`yawToward` the `atan2` heading from the pose to a point, and `angDist` the
absolute quaternion shortest-path angle between the pose heading and that
heading; these floating-point computations are carried abstractly since no
claim depends on their numeric values.
`nearestFree` — Modelled from the spec: the Nearest-Matching-Cell Finder
(`nearestCell` of `costmap_tools.h`, absent from the given sources,
specialised to `FREE_SPACE`): a bounded BFS that returns the nearest free
cell, or `none` when no match is found. -/
structure Env where
  size_x : ℕ
  size_y : ℕ
  map : ℕ → ℕ
  resolution : ℚ
  potential_scale : ℚ
  gain_scale : ℚ
  orientation_scale : ℚ
  min_frontier_size : ℚ
  max_frontier_size : ℚ
  mapToWorld : ℕ → ℕ → Point
  worldToMap : ℚ → ℚ → Option (ℕ × ℕ)
  dist : Pose → Point → ℚ
  yawToward : Pose → Point → ℚ
  angDist : Pose → Point → ℚ
  nearestFree : ℕ → Option ℕ

/-- Total number of cells of the grid (`size_x_ * size_y_`). -/
def Env.ncells (e : Env) : ℕ := e.size_x * e.size_y

/-- Linear index of cell `(mx, my)` (`Costmap2D::getIndex`). -/
def getIndex (e : Env) (mx my : ℕ) : ℕ := my * e.size_x + mx

/-- World coordinate of the cell with linear index `idx`
(`Costmap2D::indexToCells` followed by `Costmap2D::mapToWorld`). -/
def worldOf (e : Env) (idx : ℕ) : Point :=
  e.mapToWorld (idx % e.size_x) (idx / e.size_x)

/-- Setting one entry of a boolean flag array to `true`
(`flag[i] = true` on a `std::vector<bool>` modelled as a function). -/
def setFlag (flag : ℕ → Bool) (i : ℕ) : ℕ → Bool :=
  fun j => if j = i then true else flag j

/-- Modelled from the spec: the Neighbor Enumerator's 4-connected case
(`nhood4` of `costmap_tools.h`, absent from the given sources): the
orthogonally adjacent in-bounds neighbours of `idx`, in the fixed order
left, right, above, below; empty for an out-of-bounds `idx`. -/
def nhood4 (e : Env) (idx : ℕ) : List ℕ :=
  if e.ncells ≤ idx then [] else
    (if 0 < idx % e.size_x then [idx - 1] else []) ++
    (if idx % e.size_x + 1 < e.size_x then [idx + 1] else []) ++
    (if e.size_x ≤ idx then [idx - e.size_x] else []) ++
    (if idx + e.size_x < e.ncells then [idx + e.size_x] else [])

/-- Modelled from the spec: the Neighbor Enumerator's 8-connected case
(`nhood8` of `costmap_tools.h`, absent from the given sources): the
4-connected neighbours followed by the in-bounds diagonal neighbours;
empty for an out-of-bounds `idx`. -/
def nhood8 (e : Env) (idx : ℕ) : List ℕ :=
  if e.ncells ≤ idx then [] else
    nhood4 e idx ++
    (if 0 < idx % e.size_x ∧ e.size_x ≤ idx then [idx - e.size_x - 1] else []) ++
    (if idx % e.size_x + 1 < e.size_x ∧ e.size_x ≤ idx then [idx - e.size_x + 1] else []) ++
    (if 0 < idx % e.size_x ∧ idx + e.size_x < e.ncells then [idx + e.size_x - 1] else []) ++
    (if idx % e.size_x + 1 < e.size_x ∧ idx + e.size_x < e.ncells then [idx + e.size_x + 1] else [])

/-- Frontier-cell classification (`FrontierSearch::isNewFrontierCell`):
the cell is unknown, not yet flagged, and has a free 4-connected neighbour. -/
def isNewFrontierCell (e : Env) (idx : ℕ) (flag : ℕ → Bool) : Bool :=
  if e.map idx ≠ NO_INFORMATION ∨ flag idx = true then false
  else (nhood4 e idx).any fun nbr => e.map nbr == FREE_SPACE

/-- Comparison `distance < min_distance` where `min_distance` may be the
initial `+infinity` (every finite value is below `+infinity`). -/
def distLtOpt (d : ℚ) : Option ℚ → Bool
  | none => true
  | some v => decide (d < v)

/-- The strict cost comparator handed to `std::sort`
(`f1.cost < f2.cost` on doubles), on costs that may be `+infinity` (`none`):
`+infinity` is below nothing and every finite value is below it. -/
def costLtB : Option ℚ → Option ℚ → Bool
  | some x, some y => decide (x < y)
  | some _, none => true
  | none, _ => false

/-- Non-strict counterpart of `costLtB`, used to state that a returned list
is non-decreasing in cost. -/
def costLe : Option ℚ → Option ℚ → Prop
  | _, none => True
  | none, some _ => False
  | some x, some y => x ≤ y

/-- Cost of a completed frontier (`FrontierSearch::frontierCost`):
`orientation_scale * angular_distance + potential_scale * min_distance *
resolution - gain_scale * size * resolution`.  When `min_distance` is still
`+infinity` (`none`) the double arithmetic of the source yields `+infinity`
(for a positive `potential_scale`), modelled by `none`. -/
def frontierCost (e : Env) (f : Frontier) : Option ℚ :=
  match f.min_distance with
  | none => none
  | some d =>
      some (e.orientation_scale * f.angular_distance +
        e.potential_scale * d * e.resolution -
        e.gain_scale * (f.size : ℚ) * e.resolution)

/-- State of the region-growing BFS of `buildNewFrontier`: the queue, the
shared frontier flag array, the frontier being accumulated, and (ghost data
for the disjointness proofs) the linear indices of the cells whose world
coordinates were pushed into `points`, in push order. -/
structure BState where
  q : List ℕ
  flag : ℕ → Bool
  f : Frontier
  cells : List ℕ

/-- One dequeued cell's neighbour scan inside `buildNewFrontier` (the
`for (unsigned int nbr : nhood8(idx, *costmap_))` loop).  Returns the state
and the `frontier_completed` Boolean: `true` when the max-size cutoff fired,
which abandons the remaining neighbours and the queue. -/
def buildStep (e : Env) (pose : Pose) : List ℕ → BState → BState × Bool
  | [], st => (st, false)
  | nbr :: rest, st =>
    if isNewFrontierCell e nbr st.flag then
      let w := worldOf e nbr
      let f1 : Frontier := { st.f with
        points := st.f.points ++ [w],
        size := st.f.size + 1,
        centroid := ⟨st.f.centroid.x + w.x, st.f.centroid.y + w.y⟩ }
      let d := e.dist pose w
      let f2 : Frontier := { f1 with
        min_distance := if distLtOpt d f1.min_distance then some d else f1.min_distance,
        middle := if distLtOpt d f1.min_distance then w else f1.middle }
      let st1 : BState :=
        { q := st.q, flag := setFlag st.flag nbr, f := f2, cells := st.cells ++ [nbr] }
      if 0 < e.max_frontier_size ∧ e.max_frontier_size ≤ (f2.size : ℚ) * e.resolution then
        (st1, true)
      else
        buildStep e pose rest { st1 with q := st1.q ++ [nbr] }
    else
      buildStep e pose rest st

/-- The outer `while (!frontier_completed)` loop of `buildNewFrontier`,
indexed by fuel; `none` models fuel exhaustion (proved unreachable for fuel
`ncells + 2`). -/
def buildLoop (e : Env) (pose : Pose) : ℕ → BState → Option BState
  | 0, _ => none
  | fuel + 1, st =>
    match st.q with
    | [] => some st
    | idx :: rest =>
      match buildStep e pose (nhood8 e idx) { st with q := rest } with
      | (st1, true) => some st1
      | (st1, false) => buildLoop e pose fuel st1

/-- Finalisation at the end of `buildNewFrontier`: average the centroid sum,
then overwrite the exposed centroid with the middle point, and compute the
orientation toward the middle point and the angular distance to it. -/
def finalizeFrontier (e : Env) (pose : Pose) (f : Frontier) : Frontier :=
  let favg : Frontier :=
    { f with centroid := ⟨f.centroid.x / (f.size : ℚ), f.centroid.y / (f.size : ℚ)⟩ }
  { favg with
    centroid := f.middle,
    orientation := e.yawToward pose f.middle,
    angular_distance := e.angDist pose f.middle }

/-- Region growth (`FrontierSearch::buildNewFrontier`): grow one frontier
from `initial_cell` by 8-connected BFS, mutating the shared frontier flag.
Returns the completed frontier, the (ghost) list of cells pushed into
`points`, and the updated flag array. -/
def buildNewFrontier (e : Env) (pose : Pose) (initial_cell : ℕ) (flag : ℕ → Bool) :
    Option (Frontier × List ℕ × (ℕ → Bool)) :=
  match buildLoop e pose (e.ncells + 2)
      { q := [initial_cell], flag := flag,
        f := { points := [], size := 1, initial := worldOf e initial_cell,
               middle := ⟨0, 0⟩, centroid := ⟨0, 0⟩, min_distance := none,
               orientation := 0, angular_distance := 0, cost := none },
        cells := [] } with
  | some st => some (finalizeFrontier e pose st.f, st.cells, st.flag)
  | none => none

/-- State of the grid-wide discovery BFS of `searchFrom`: the queue, the two
flag arrays, the accumulated result list, and (ghost data) every built
frontier paired with the cells of its `points`, kept or not. -/
structure SState where
  q : List ℕ
  visited : ℕ → Bool
  fflag : ℕ → Bool
  list : List Frontier
  builds : List (Frontier × List ℕ)

/-- One dequeued cell's neighbour scan inside `searchFrom` (the
`for (unsigned nbr : nhood4(idx, *costmap_))` loop): enqueue free unvisited
cells, and on a new frontier cell flag it, build its region, and append the
scored frontier when it meets the minimum size. -/
def searchStep (e : Env) (pose : Pose) (idx : ℕ) : List ℕ → SState → Option SState
  | [], st => some st
  | nbr :: rest, st =>
    if e.map nbr ≤ e.map idx ∧ st.visited nbr = false then
      searchStep e pose idx rest
        { st with visited := setFlag st.visited nbr, q := st.q ++ [nbr] }
    else if isNewFrontierCell e nbr st.fflag then
      match buildNewFrontier e pose nbr (setFlag st.fflag nbr) with
      | none => none
      | some (nf, cells, fflag1) =>
        if e.min_frontier_size ≤ (nf.size : ℚ) * e.resolution then
          searchStep e pose idx rest
            { st with
              fflag := fflag1,
              list := st.list ++ [{ nf with cost := frontierCost e nf }],
              builds := st.builds ++ [(nf, cells)] }
        else
          searchStep e pose idx rest
            { st with fflag := fflag1, builds := st.builds ++ [(nf, cells)] }
    else
      searchStep e pose idx rest st

/-- The outer `while (!bfs.empty())` loop of `searchFrom`, indexed by fuel;
`none` models fuel exhaustion (proved unreachable for fuel `ncells + 2`).
On drain it returns the accumulated list together with the ghost build
records. -/
def searchLoop (e : Env) (pose : Pose) :
    ℕ → SState → Option (List Frontier × List (Frontier × List ℕ))
  | 0, _ => none
  | fuel + 1, st =>
    match st.q with
    | [] => some (st.list, st.builds)
    | idx :: rest =>
      match searchStep e pose idx (nhood4 e idx) { st with q := rest } with
      | none => none
      | some st1 => searchLoop e pose fuel st1

/-- The search up to (but not including) the final `std::sort`
(`FrontierSearch::searchFrom`): bounds-check the pose, seed the BFS on the
nearest free cell (or the raw pose cell when none is found), mark the seed
visited, and run the discovery BFS.  The second component is the ghost list
of all built regions. -/
def searchFrom (e : Env) (pose : Pose) :
    Option (List Frontier × List (Frontier × List ℕ)) :=
  match e.worldToMap pose.x pose.y with
  | none => some ([], [])
  | some (mx, my) =>
    let pos := getIndex e mx my
    let start :=
      match e.nearestFree pos with
      | some clear => clear
      | none => pos
    searchLoop e pose (e.ncells + 2)
      { q := [start], visited := setFlag (fun _ => false) start
        fflag := fun _ => false, list := [], builds := [] }

/-- Sortedness with respect to the strict comparator given to `std::sort`:
no element is strictly below an element preceding it. -/
def sortedByCost (l : List Frontier) : Prop :=
  l.Pairwise fun a b => costLtB b.cost a.cost = false

/-- The postcondition the C++ standard gives for `std::sort`: the output is
a permutation of the input that is sorted with respect to the comparator.
The order of equivalent elements is unspecified, so the sorted result is a
relation, not a function, of the input. -/
def stdSortSpec (l out : List Frontier) : Prop :=
  l.Perm out ∧ sortedByCost out

/-- The admissible return values of the full `searchFrom` call: the list the
BFS accumulated, permuted into some cost-sorted order by `std::sort`. -/
def searchFromResult (e : Env) (pose : Pose) (out : List Frontier) : Prop :=
  ∃ pre builds, searchFrom e pose = some (pre, builds) ∧ stdSortSpec pre out

/-- Frontier `f` occurs (at some position) strictly before an occurrence of
`g` in the list `l`. -/
def appearsBefore (l : List Frontier) (f g : Frontier) : Prop :=
  ∃ i : Fin l.length, ∃ j : Fin l.length, i.val < j.val ∧ l.get i = f ∧ l.get j = g

/-- Stability of a sort: two distinct equal-cost frontiers keep the relative
order they had in the unsorted list. -/
def stableTies (pre out : List Frontier) : Prop :=
  ∀ f g, f ≠ g → f.cost = g.cost → appearsBefore pre f g → appearsBefore out f g

/-- Number of cells of the grid whose flag is still unset; the termination
measure of both BFS loops counts the queue length plus this number. -/
def unsetCount (e : Env) (flag : ℕ → Bool) : ℕ :=
  ((Finset.range e.ncells).filter fun c => flag c = false).card

/-- A fixed reference pose for the concrete test grids below. -/
def pose0 : Pose := ⟨0, 0, 0⟩

/-- Concrete 3-by-3 grid whose centre cell (index 4) is the only unknown
cell, every other cell free: the centre is a frontier cell whose region is
the singleton consisting of itself.  World coordinates are offset by 10 so
that the origin point is not the coordinate of any cell. -/
def envC1 : Env where
  size_x := 3
  size_y := 3
  map := fun i => if i = 4 then NO_INFORMATION else FREE_SPACE
  resolution := 1
  potential_scale := 1
  gain_scale := 1
  orientation_scale := 1
  min_frontier_size := 0
  max_frontier_size := 0
  mapToWorld := fun mx my => ⟨(mx : ℚ) + 10, (my : ℚ) + 10⟩
  worldToMap := fun _ _ => some (1, 1)
  dist := fun _ _ => 5
  yawToward := fun _ _ => 0
  angDist := fun _ _ => 0
  nearestFree := fun _ => some 4

/-- Concrete 1-by-5 grid `[Unknown, Free, Free, Free, Unknown]` with the
pose over the central free cell: the search finds two singleton frontier
regions, first the one at cell 0, then the one at cell 4. -/
def envC2 : Env where
  size_x := 5
  size_y := 1
  map := fun i => if i = 0 ∨ i = 4 then NO_INFORMATION else FREE_SPACE
  resolution := 1
  potential_scale := 1
  gain_scale := 1
  orientation_scale := 1
  min_frontier_size := 0
  max_frontier_size := 0
  mapToWorld := fun mx my => ⟨(mx : ℚ), (my : ℚ)⟩
  worldToMap := fun _ _ => some (2, 0)
  dist := fun _ _ => 7
  yawToward := fun _ _ => 0
  angDist := fun _ _ => 0
  nearestFree := fun _ => some 2

/-- Concrete 1-by-4 grid `[Free, Unknown, Unknown, Free]` with a positive
maximum frontier size of `1/2`, which is below one cell's physical size:
growth from seed cell 1 still adds cell 2 before the first size check. -/
def envC5 : Env where
  size_x := 4
  size_y := 1
  map := fun i => if i = 1 ∨ i = 2 then NO_INFORMATION else FREE_SPACE
  resolution := 1
  potential_scale := 1
  gain_scale := 1
  orientation_scale := 1
  min_frontier_size := 0
  max_frontier_size := 1/2
  mapToWorld := fun mx my => ⟨(mx : ℚ), (my : ℚ)⟩
  worldToMap := fun _ _ => some (0, 0)
  dist := fun _ _ => 5
  yawToward := fun _ _ => 0
  angDist := fun _ _ => 0
  nearestFree := fun _ => some 0

/-- The 1-by-4 grid of `envC5` with the maximum frontier size disabled: the
search returns one two-cell frontier region with a finite `min_distance`. -/
def envC6 : Env := { envC5 with max_frontier_size := 0 }

/-- The grid of `envC2` with a world-to-map conversion that always fails:
every pose is out of costmap bounds. -/
def envC7 : Env := { envC2 with worldToMap := fun _ _ => none }

/-- Concrete 1-by-1 grid consisting of a single lethal-obstacle cell, with
no free cell for the nearest-cell finder to report: the degraded
continuation path of `searchFrom`. -/
def envC8 : Env where
  size_x := 1
  size_y := 1
  map := fun _ => LETHAL_OBSTACLE
  resolution := 1
  potential_scale := 1
  gain_scale := 1
  orientation_scale := 1
  min_frontier_size := 0
  max_frontier_size := 0
  mapToWorld := fun mx my => ⟨(mx : ℚ), (my : ℚ)⟩
  worldToMap := fun _ _ => some (0, 0)
  dist := fun _ _ => 5
  yawToward := fun _ _ => 0
  angDist := fun _ _ => 0
  nearestFree := fun _ => none

/-- The singleton frontier region at cell 0 of `envC2`, as the search
builds it (the seed's own coordinate is never measured, so `min_distance`
stays `+infinity` and `middle` keeps its zero initialisation). -/
def frontA : Frontier :=
  { points := [], size := 1, initial := ⟨0, 0⟩, middle := ⟨0, 0⟩,
    centroid := ⟨0, 0⟩, min_distance := none, orientation := 0,
    angular_distance := 0, cost := none }

/-- The singleton frontier region at cell 4 of `envC2`. -/
def frontB : Frontier := { frontA with initial := ⟨4, 0⟩ }

/-- The list `searchFrom` accumulates on `envC2`, in discovery order. -/
def preC2 : List Frontier := [frontA, frontB]

/-- The ghost build records of the `envC2` search. -/
def buildsC2 : List (Frontier × List ℕ) := [(frontA, []), (frontB, [])]

/-- The discovery-order list of `envC2` with its two equal-cost frontiers
interchanged: also an admissible `std::sort` output. -/
def outC2 : List Frontier := [frontB, frontA]

/-- The two-cell frontier region of `envC6`, before cost assignment. -/
def frontC6 : Frontier :=
  { points := [⟨2, 0⟩], size := 2, initial := ⟨1, 0⟩, middle := ⟨2, 0⟩,
    centroid := ⟨2, 0⟩, min_distance := some 5, orientation := 0,
    angular_distance := 0, cost := none }

/-- The frontier of `envC6` as it appears in the result list, with its cost
assigned: `1 * 0 + 1 * 5 * 1 - 1 * 2 * 1 = 3`. -/
def keptC6 : Frontier := { frontC6 with cost := some 3 }

/-- The result list `searchFrom` accumulates on `envC6`. -/
def listC6 : List Frontier := [keptC6]

/-- The ghost build records of the `envC6` search. -/
def buildsC6 : List (Frontier × List ℕ) := [(frontC6, [2])]

/-- Invariant of the region-growing loop: while growth is still running,
either no cell has been added yet or the max-size cutoff has not fired. -/
def Pmax (e : Env) (f : Frontier) : Prop :=
  0 < e.max_frontier_size →
    f.size = 1 ∨ (f.size : ℚ) * e.resolution < e.max_frontier_size

/-- Size bound actually guaranteed for a completed region when a positive
maximum is configured: one cell of overshoot, except that a region can
always reach two cells before the first size check. -/
def maxSizeBound (e : Env) (f : Frontier) : Prop :=
  0 < e.max_frontier_size →
    ((f.size : ℚ) * e.resolution < e.max_frontier_size + e.resolution ∨ f.size ≤ 2)

/-- Invariant of the discovery loop tying the ghost build records to the
shared frontier flag: every recorded region lists the cells of its points,
with no duplicates, all currently flagged, and the regions are pairwise
disjoint at the cell level. -/
def buildsInv (e : Env) (fflag : ℕ → Bool) (builds : List (Frontier × List ℕ)) : Prop :=
  (∀ pr ∈ builds,
    pr.1.points = pr.2.map (worldOf e) ∧ pr.2.Nodup ∧ ∀ c ∈ pr.2, fflag c = true) ∧
  (builds.map Prod.snd).Pairwise List.Disjoint

/-- Invariant of the discovery loop characterising the accumulated result
list: exactly the built regions that met the minimum physical size, each
with its cost assigned, in build order. -/
def listChar (e : Env) (list : List Frontier) (builds : List (Frontier × List ℕ)) : Prop :=
  list = (builds.filter fun pr =>
      decide (e.min_frontier_size ≤ (pr.1.size : ℚ) * e.resolution)).map
    fun pr => { pr.1 with cost := frontierCost e pr.1 }

/-! ### Arithmetic facts about the linear index scheme -/

theorem add_one_lt_of_mod {sx sy idx : ℕ} (h1 : idx % sx + 1 < sx)
    (h2 : idx < sx * sy) : idx + 1 < sx * sy := by
  have hsx : 0 < sx := by
    rcases sx with _ | s
    · rw [Nat.mod_zero] at h1; omega
    · omega
  have hq : idx / sx < sy := (Nat.div_lt_iff_lt_mul hsx).mpr (by rw [Nat.mul_comm]; exact h2)
  have hdm := Nat.div_add_mod idx sx
  calc idx + 1 = sx * (idx / sx) + (idx % sx + 1) := by omega
    _ < sx * (idx / sx) + sx := by omega
    _ = sx * (idx / sx + 1) := by ring
    _ ≤ sx * sy := Nat.mul_le_mul_left sx (Nat.succ_le_of_lt hq)

theorem mem_ite_singleton {c : Prop} [Decidable c] {a j : ℕ} :
    j ∈ (if c then [a] else []) ↔ c ∧ j = a := by
  split_ifs with h <;> simp [h]

theorem mem_nhood4 (e : Env) (idx j : ℕ) :
    j ∈ nhood4 e idx ↔ idx < e.ncells ∧
      ((0 < idx % e.size_x ∧ j = idx - 1) ∨
       (idx % e.size_x + 1 < e.size_x ∧ j = idx + 1) ∨
       (e.size_x ≤ idx ∧ j = idx - e.size_x) ∨
       (idx + e.size_x < e.ncells ∧ j = idx + e.size_x)) := by
  unfold nhood4
  rcases le_or_lt e.ncells idx with h | h
  · rw [if_pos h]
    simp only [List.not_mem_nil, false_iff]
    rintro ⟨h', _⟩
    omega
  · rw [if_neg (Nat.not_le.mpr h)]
    simp only [List.mem_append, mem_ite_singleton, h, true_and, or_assoc]

theorem mem_nhood8 (e : Env) (idx j : ℕ) :
    j ∈ nhood8 e idx ↔ idx < e.ncells ∧
      (j ∈ nhood4 e idx ∨
       ((0 < idx % e.size_x ∧ e.size_x ≤ idx) ∧ j = idx - e.size_x - 1) ∨
       ((idx % e.size_x + 1 < e.size_x ∧ e.size_x ≤ idx) ∧ j = idx - e.size_x + 1) ∨
       ((0 < idx % e.size_x ∧ idx + e.size_x < e.ncells) ∧ j = idx + e.size_x - 1) ∨
       ((idx % e.size_x + 1 < e.size_x ∧ idx + e.size_x < e.ncells) ∧ j = idx + e.size_x + 1)) := by
  unfold nhood8
  rcases le_or_lt e.ncells idx with h | h
  · rw [if_pos h]
    simp only [List.not_mem_nil, false_iff]
    rintro ⟨h', _⟩
    omega
  · rw [if_neg (Nat.not_le.mpr h)]
    simp only [List.mem_append, mem_ite_singleton, h, true_and, or_assoc]

theorem nhood4_lt (e : Env) (idx : ℕ) : ∀ j ∈ nhood4 e idx, j < e.ncells := by
  intro j hj
  rw [mem_nhood4] at hj
  obtain ⟨h, hj⟩ := hj
  rcases hj with ⟨hc, rfl⟩ | ⟨hc, rfl⟩ | ⟨hc, rfl⟩ | ⟨hc, rfl⟩
  · omega
  · exact add_one_lt_of_mod hc h
  · omega
  · exact hc

theorem nhood8_lt (e : Env) (idx : ℕ) : ∀ j ∈ nhood8 e idx, j < e.ncells := by
  intro j hj
  rw [mem_nhood8] at hj
  obtain ⟨h, hj⟩ := hj
  rcases hj with hj | ⟨hc, rfl⟩ | ⟨hc, rfl⟩ | ⟨hc, rfl⟩ | ⟨hc, rfl⟩
  · exact nhood4_lt e idx j hj
  · omega
  · obtain ⟨hc1, hc2⟩ := hc
    omega
  · omega
  · exact add_one_lt_of_mod (by rw [Nat.add_mod_right]; exact hc.1) hc.2

/-! ### Flag arrays and the termination measure -/

theorem setFlag_eq (flag : ℕ → Bool) (i j : ℕ) :
    setFlag flag i j = true ↔ j = i ∨ flag j = true := by
  unfold setFlag
  split_ifs with h <;> simp [h]

theorem setFlag_false (flag : ℕ → Bool) (i j : ℕ) :
    setFlag flag i j = false ↔ j ≠ i ∧ flag j = false := by
  rcases h : setFlag flag i j with _ | _ <;> rcases hf : flag j with _ | _ <;>
    simp_all [setFlag_eq] <;> simp_all [setFlag]

theorem unsetCount_le (e : Env) (flag : ℕ → Bool) : unsetCount e flag ≤ e.ncells := by
  unfold unsetCount
  calc ((Finset.range e.ncells).filter fun c => flag c = false).card
      ≤ (Finset.range e.ncells).card := Finset.card_filter_le _ _
    _ = e.ncells := Finset.card_range _

theorem unsetCount_setFlag (e : Env) (flag : ℕ → Bool) (c : ℕ)
    (hc : c < e.ncells) (hf : flag c = false) :
    unsetCount e (setFlag flag c) + 1 = unsetCount e flag := by
  unfold unsetCount
  have hmem : c ∈ (Finset.range e.ncells).filter fun j => flag j = false := by
    simp [Finset.mem_filter, Finset.mem_range, hc, hf]
  have hset : ((Finset.range e.ncells).filter fun j => setFlag flag c j = false) =
      ((Finset.range e.ncells).filter fun j => flag j = false).erase c := by
    ext j
    simp only [Finset.mem_filter, Finset.mem_range, Finset.mem_erase, setFlag_false]
    tauto
  rw [hset, Finset.card_erase_of_mem hmem]
  have hpos : 0 < ((Finset.range e.ncells).filter fun j => flag j = false).card :=
    Finset.card_pos.mpr ⟨c, hmem⟩
  omega

theorem isNewFrontierCell_unflagged {e : Env} {idx : ℕ} {flag : ℕ → Bool}
    (h : isNewFrontierCell e idx flag = true) : flag idx = false := by
  unfold isNewFrontierCell at h
  split_ifs at h with hc
  rcases hf : flag idx with _ | _
  · rfl
  · exact absurd (Or.inr hf) hc

/-! ### Invariants of the region-growing loop of buildNewFrontier -/

theorem buildStep_spec (e : Env) (pose : Pose) :
    ∀ (nbrs : List ℕ) (st st' : BState) (b : Bool),
      buildStep e pose nbrs st = (st', b) →
      ∃ added : List ℕ,
        st'.cells = st.cells ++ added ∧
        st'.f.points = st.f.points ++ added.map (worldOf e) ∧
        st'.f.size = st.f.size + added.length ∧
        added.Nodup ∧
        (∀ c ∈ added, st.flag c = false) ∧
        (∀ j, st'.flag j = true ↔ st.flag j = true ∨ j ∈ added) := by
  intro nbrs
  induction nbrs with
  | nil =>
    intro st st' b h
    simp only [buildStep] at h
    injection h with h1 h2
    subst h1
    exact ⟨[], by simp⟩
  | cons nbr rest ih =>
    intro st st' b h
    simp only [buildStep] at h
    by_cases hnew : isNewFrontierCell e nbr st.flag = true
    · rw [if_pos hnew] at h
      have hfr : st.flag nbr = false := isNewFrontierCell_unflagged hnew
      by_cases hcut : 0 < e.max_frontier_size ∧
          e.max_frontier_size ≤ ((st.f.size + 1 : ℕ) : ℚ) * e.resolution
      · rw [if_pos hcut] at h
        injection h with h1 h2
        subst h1
        refine ⟨[nbr], rfl, by simp, by simp, by simp, ?_, ?_⟩
        · intro c hc
          rw [List.mem_singleton] at hc
          subst hc
          exact hfr
        · intro j
          simp [setFlag_eq]
          tauto
      · rw [if_neg hcut] at h
        obtain ⟨added1, hc1, hp1, hs1, hnd1, hfr1, hfl1⟩ := ih _ st' b h
        refine ⟨nbr :: added1, ?_, ?_, ?_, ?_, ?_, ?_⟩
        · rw [hc1]
          simp
        · rw [hp1]
          simp
        · rw [hs1]
          simp only [List.length_cons]
          omega
        · refine List.nodup_cons.mpr ⟨?_, hnd1⟩
          intro hmem
          have := hfr1 nbr hmem
          rw [setFlag_false] at this
          exact this.1 rfl
        · intro c hc
          rcases List.mem_cons.mp hc with rfl | hc
          · exact hfr
          · have := hfr1 c hc
            rw [setFlag_false] at this
            exact this.2
        · intro j
          rw [hfl1 j, setFlag_eq]
          simp [List.mem_cons]
          tauto
    · rw [if_neg hnew] at h
      exact ih st st' b h

theorem buildStep_maxsize (e : Env) (pose : Pose) :
    ∀ (nbrs : List ℕ) (st st' : BState) (b : Bool),
      buildStep e pose nbrs st = (st', b) → Pmax e st.f →
      (b = false → Pmax e st'.f) ∧ (b = true → maxSizeBound e st'.f) := by
  intro nbrs
  induction nbrs with
  | nil =>
    intro st st' b h hP
    simp only [buildStep] at h
    injection h with h1 h2
    subst h1
    subst h2
    exact ⟨fun _ => hP, fun hb => Bool.noConfusion hb⟩
  | cons nbr rest ih =>
    intro st st' b h hP
    simp only [buildStep] at h
    by_cases hnew : isNewFrontierCell e nbr st.flag = true
    · rw [if_pos hnew] at h
      by_cases hcut : 0 < e.max_frontier_size ∧
          e.max_frontier_size ≤ ((st.f.size + 1 : ℕ) : ℚ) * e.resolution
      · rw [if_pos hcut] at h
        injection h with h1 h2
        subst h1
        subst h2
        refine ⟨fun hb => Bool.noConfusion hb, fun _ => ?_⟩
        intro hmax
        rcases hP hmax with h1 | h1
        · right
          show st.f.size + 1 ≤ 2
          omega
        · left
          show ((st.f.size + 1 : ℕ) : ℚ) * e.resolution <
            e.max_frontier_size + e.resolution
          push_cast
          nlinarith [h1]
      · rw [if_neg hcut] at h
        refine ih _ st' b h ?_
        intro hmax
        right
        show ((st.f.size + 1 : ℕ) : ℚ) * e.resolution < e.max_frontier_size
        push_neg at hcut
        exact hcut hmax
    · rw [if_neg hnew] at h
      exact ih st st' b h hP

theorem buildStep_measure (e : Env) (pose : Pose) :
    ∀ (nbrs : List ℕ), (∀ c ∈ nbrs, c < e.ncells) →
      ∀ (st st' : BState) (b : Bool), buildStep e pose nbrs st = (st', b) →
      st'.q.length + unsetCount e st'.flag ≤ st.q.length + unsetCount e st.flag := by
  intro nbrs
  induction nbrs with
  | nil =>
    intro _ st st' b h
    simp only [buildStep] at h
    injection h with h1 h2
    subst h1
    exact le_refl _
  | cons nbr rest ih =>
    intro hb st st' b h
    have hnb : nbr < e.ncells := hb nbr (List.mem_cons_self nbr rest)
    have hbrest : ∀ c ∈ rest, c < e.ncells := fun c hc => hb c (List.mem_cons_of_mem nbr hc)
    simp only [buildStep] at h
    by_cases hnew : isNewFrontierCell e nbr st.flag = true
    · rw [if_pos hnew] at h
      have hfr : st.flag nbr = false := isNewFrontierCell_unflagged hnew
      have hcount := unsetCount_setFlag e st.flag nbr hnb hfr
      by_cases hcut : 0 < e.max_frontier_size ∧
          e.max_frontier_size ≤ ((st.f.size + 1 : ℕ) : ℚ) * e.resolution
      · rw [if_pos hcut] at h
        injection h with h1 h2
        subst h1
        show st.q.length + unsetCount e (setFlag st.flag nbr) ≤
          st.q.length + unsetCount e st.flag
        omega
      · rw [if_neg hcut] at h
        have := ih hbrest _ st' b h
        simp only [List.length_append, List.length_singleton] at this
        omega
    · rw [if_neg hnew] at h
      exact ih hbrest st st' b h

theorem buildLoop_spec (e : Env) (pose : Pose) :
    ∀ (fuel : ℕ) (q : List ℕ) (flag : ℕ → Bool) (f : Frontier) (cells : List ℕ)
      (st' : BState), buildLoop e pose fuel ⟨q, flag, f, cells⟩ = some st' →
      ∃ added : List ℕ,
        st'.cells = cells ++ added ∧
        st'.f.points = f.points ++ added.map (worldOf e) ∧
        st'.f.size = f.size + added.length ∧
        added.Nodup ∧
        (∀ c ∈ added, flag c = false) ∧
        (∀ j, st'.flag j = true ↔ flag j = true ∨ j ∈ added) := by
  intro fuel
  induction fuel with
  | zero =>
    intro q flag f cells st' h
    simp [buildLoop] at h
  | succ n ih =>
    intro q flag f cells st' h
    rcases q with _ | ⟨idx, rest⟩
    · simp only [buildLoop] at h
      injection h with h1
      subst h1
      exact ⟨[], by simp⟩
    · simp only [buildLoop] at h
      rcases hbs : buildStep e pose (nhood8 e idx) ⟨rest, flag, f, cells⟩ with ⟨st1, b⟩
      rw [hbs] at h
      obtain ⟨a1, hc1, hp1, hs1, hnd1, hfr1, hfl1⟩ :=
        buildStep_spec e pose (nhood8 e idx) _ _ _ hbs
      simp only at hc1 hp1 hs1 hfr1 hfl1
      rcases b
      · obtain ⟨q1, flag1, f1, cells1⟩ := st1
        obtain ⟨a2, hc2, hp2, hs2, hnd2, hfr2, hfl2⟩ := ih _ _ _ _ st' h
        simp only at hc1 hp1 hs1 hfr1 hfl1 hc2 hp2 hs2 hfr2 hfl2
        refine ⟨a1 ++ a2, ?_, ?_, ?_, ?_, ?_, ?_⟩
        · rw [hc2, hc1, List.append_assoc]
        · rw [hp2, hp1, List.map_append, List.append_assoc]
        · rw [hs2, hs1, List.length_append]
          omega
        · refine List.Nodup.append hnd1 hnd2 ?_
          intro a ha1 ha2
          have h1 : flag1 a = true := (hfl1 a).mpr (Or.inr ha1)
          have h2 : flag1 a = false := hfr2 a ha2
          rw [h1] at h2
          exact Bool.noConfusion h2
        · intro c hc
          rcases List.mem_append.mp hc with hc | hc
          · exact hfr1 c hc
          · rcases hflag : flag c with _ | _
            · rfl
            · have h1 : flag1 c = true := (hfl1 c).mpr (Or.inl hflag)
              have h2 : flag1 c = false := hfr2 c hc
              rw [h1] at h2
              exact Bool.noConfusion h2
        · intro j
          rw [hfl2 j, hfl1 j, List.mem_append]
          tauto
      · injection h with h1
        subst h1
        exact ⟨a1, hc1, hp1, hs1, hnd1, hfr1, hfl1⟩

theorem buildLoop_maxsize (e : Env) (pose : Pose) (hres : 0 ≤ e.resolution) :
    ∀ (fuel : ℕ) (q : List ℕ) (flag : ℕ → Bool) (f : Frontier) (cells : List ℕ)
      (st' : BState), buildLoop e pose fuel ⟨q, flag, f, cells⟩ = some st' →
      Pmax e f → maxSizeBound e st'.f := by
  intro fuel
  induction fuel with
  | zero =>
    intro q flag f cells st' h
    simp [buildLoop] at h
  | succ n ih =>
    intro q flag f cells st' h hP
    rcases q with _ | ⟨idx, rest⟩
    · simp only [buildLoop] at h
      injection h with h1
      subst h1
      intro hmax
      rcases hP hmax with h1 | h1
      · right
        simp only
        omega
      · left
        simp only
        linarith [h1]
    · simp only [buildLoop] at h
      rcases hbs : buildStep e pose (nhood8 e idx) ⟨rest, flag, f, cells⟩ with ⟨st1, b⟩
      rw [hbs] at h
      have hstep := buildStep_maxsize e pose (nhood8 e idx) _ _ _ hbs hP
      rcases b
      · obtain ⟨q1, flag1, f1, cells1⟩ := st1
        exact ih _ _ _ _ st' h (hstep.1 rfl)
      · injection h with h1
        subst h1
        exact hstep.2 rfl

theorem buildLoop_total (e : Env) (pose : Pose) :
    ∀ (fuel : ℕ) (q : List ℕ) (flag : ℕ → Bool) (f : Frontier) (cells : List ℕ),
      q.length + unsetCount e flag < fuel →
      ∃ st', buildLoop e pose fuel ⟨q, flag, f, cells⟩ = some st' := by
  intro fuel
  induction fuel with
  | zero =>
    intro q flag f cells h
    omega
  | succ n ih =>
    intro q flag f cells h
    rcases q with _ | ⟨idx, rest⟩
    · exact ⟨⟨[], flag, f, cells⟩, rfl⟩
    · rcases hbs : buildStep e pose (nhood8 e idx) ⟨rest, flag, f, cells⟩ with ⟨st1, b⟩
      have hmeas := buildStep_measure e pose (nhood8 e idx) (nhood8_lt e idx) _ _ _ hbs
      simp only [List.length_cons] at h
      simp only at hmeas
      rcases b
      · obtain ⟨q1, flag1, f1, cells1⟩ := st1
        simp only at hmeas
        obtain ⟨st', h'⟩ := ih q1 flag1 f1 cells1 (by omega)
        refine ⟨st', ?_⟩
        simp only [buildLoop]
        rw [hbs]
        exact h'
      · refine ⟨st1, ?_⟩
        simp only [buildLoop]
        rw [hbs]

theorem buildNewFrontier_spec (e : Env) (pose : Pose) (c : ℕ) (flag : ℕ → Bool)
    {f : Frontier} {cells : List ℕ} {flag' : ℕ → Bool}
    (h : buildNewFrontier e pose c flag = some (f, cells, flag')) :
    f.points = cells.map (worldOf e) ∧
    f.size = cells.length + 1 ∧
    cells.Nodup ∧
    (∀ j ∈ cells, flag j = false) ∧
    (∀ j, flag' j = true ↔ flag j = true ∨ j ∈ cells) ∧
    (0 ≤ e.resolution → maxSizeBound e f) := by
  unfold buildNewFrontier at h
  rcases hb : buildLoop e pose (e.ncells + 2)
      { q := [c], flag := flag,
        f := ⟨[], 1, worldOf e c, ⟨0, 0⟩, ⟨0, 0⟩, none, 0, 0, none⟩,
        cells := [] } with _ | st <;> rw [hb] at h
  · exact absurd h (by simp)
  · injection h with h1
    injection h1 with hA hBC
    injection hBC with hB hC
    subst hA
    subst hB
    subst hC
    obtain ⟨added, hc, hp, hs, hnd, hfr, hfl⟩ := buildLoop_spec e pose _ _ _ _ _ _ hb
    simp only [List.nil_append] at hc hp hs
    refine ⟨?_, ?_, ?_, ?_, ?_, ?_⟩
    · show st.f.points = st.cells.map (worldOf e)
      rw [hp, hc]
    · show st.f.size = st.cells.length + 1
      rw [hs, hc]
      omega
    · rw [hc]
      exact hnd
    · rw [hc]
      exact hfr
    · intro j
      rw [← hc] at hfl
      exact hfl j
    · intro hres
      have hP : Pmax e (⟨[], 1, worldOf e c, ⟨0, 0⟩, ⟨0, 0⟩, none, 0, 0, none⟩ : Frontier) :=
        fun _ => Or.inl rfl
      have := buildLoop_maxsize e pose hres (e.ncells + 2) _ _ _ _ _ hb hP
      exact this

theorem buildNewFrontier_some (e : Env) (pose : Pose) (c : ℕ) (flag : ℕ → Bool) :
    ∃ r, buildNewFrontier e pose c flag = some r := by
  have hcnt := unsetCount_le e flag
  obtain ⟨st, hst⟩ := buildLoop_total e pose (e.ncells + 2) [c] flag
    ⟨[], 1, worldOf e c, ⟨0, 0⟩, ⟨0, 0⟩, none, 0, 0, none⟩ []
    (by simp only [List.length_singleton]; omega)
  exact ⟨_, by unfold buildNewFrontier; rw [hst]⟩

/-! ### Invariants of the grid-wide discovery loop of searchFrom -/

theorem buildsInv_extend (e : Env) {pose : Pose} {nbr : ℕ} {fflag fflag1 : ℕ → Bool}
    {nf : Frontier} {cells : List ℕ} {builds : List (Frontier × List ℕ)}
    (hbn : buildNewFrontier e pose nbr (setFlag fflag nbr) = some (nf, cells, fflag1))
    (hinv : buildsInv e fflag builds) :
    buildsInv e fflag1 (builds ++ [(nf, cells)]) := by
  obtain ⟨hp, hs, hnd, hfr, hfl, _⟩ := buildNewFrontier_spec e pose nbr _ hbn
  obtain ⟨hrec, hdisj⟩ := hinv
  constructor
  · intro pr hpr
    rcases List.mem_append.mp hpr with hpr | hpr
    · obtain ⟨h1, h2, h3⟩ := hrec pr hpr
      refine ⟨h1, h2, fun c hc => ?_⟩
      exact (hfl c).mpr (Or.inl ((setFlag_eq fflag nbr c).mpr (Or.inr (h3 c hc))))
    · rw [List.mem_singleton] at hpr
      subst hpr
      exact ⟨hp, hnd, fun c hc => (hfl c).mpr (Or.inr hc)⟩
  · rw [List.map_append]
    rw [List.pairwise_append]
    refine ⟨hdisj, List.pairwise_singleton _ _, ?_⟩
    intro l hl l' hl'
    rw [List.map_singleton, List.mem_singleton] at hl'
    subst hl'
    rw [List.mem_map] at hl
    obtain ⟨pr, hpr, rfl⟩ := hl
    intro a ha ha'
    have h1 : fflag a = true := (hrec pr hpr).2.2 a ha
    have h2 : setFlag fflag nbr a = false := hfr a ha'
    rw [setFlag_false] at h2
    rw [h1] at h2
    exact Bool.noConfusion h2.2

theorem listChar_extend_keep (e : Env) {list : List Frontier}
    {builds : List (Frontier × List ℕ)} {nf : Frontier} {cells : List ℕ}
    (hchar : listChar e list builds)
    (hkeep : e.min_frontier_size ≤ (nf.size : ℚ) * e.resolution) :
    listChar e (list ++ [{ nf with cost := frontierCost e nf }]) (builds ++ [(nf, cells)]) := by
  unfold listChar at hchar ⊢
  rw [List.filter_append, List.map_append, ← hchar]
  congr 1
  simp [List.filter, hkeep]

theorem listChar_extend_drop (e : Env) {list : List Frontier}
    {builds : List (Frontier × List ℕ)} {nf : Frontier} {cells : List ℕ}
    (hchar : listChar e list builds)
    (hdrop : ¬ e.min_frontier_size ≤ (nf.size : ℚ) * e.resolution) :
    listChar e list (builds ++ [(nf, cells)]) := by
  unfold listChar at hchar ⊢
  rw [List.filter_append, List.map_append, ← hchar]
  have : (List.filter (fun pr =>
      decide (e.min_frontier_size ≤ (pr.1.size : ℚ) * e.resolution)) [(nf, cells)]) = [] := by
    simp [List.filter, hdrop]
  rw [this]
  simp

theorem searchStep_spec (e : Env) (pose : Pose) (idx : ℕ) :
    ∀ (nbrs : List ℕ) (q : List ℕ) (visited fflag : ℕ → Bool) (list : List Frontier)
      (builds : List (Frontier × List ℕ)) (st' : SState),
      searchStep e pose idx nbrs ⟨q, visited, fflag, list, builds⟩ = some st' →
      buildsInv e fflag builds → listChar e list builds →
      buildsInv e st'.fflag st'.builds ∧ listChar e st'.list st'.builds := by
  intro nbrs
  induction nbrs with
  | nil =>
    intro q visited fflag list builds st' h hinv hchar
    simp only [searchStep] at h
    injection h with h1
    subst h1
    exact ⟨hinv, hchar⟩
  | cons nbr rest ih =>
    intro q visited fflag list builds st' h hinv hchar
    simp only [searchStep] at h
    by_cases hv : e.map nbr ≤ e.map idx ∧ visited nbr = false
    · rw [if_pos hv] at h
      exact ih _ _ _ _ _ st' h hinv hchar
    · rw [if_neg hv] at h
      by_cases hnew : isNewFrontierCell e nbr fflag = true
      · rw [if_pos hnew] at h
        rcases hbn : buildNewFrontier e pose nbr (setFlag fflag nbr)
          with _ | ⟨nf, cells, fflag1⟩
        · rw [hbn] at h
          exact absurd h (by simp)
        · simp only [hbn] at h
          have hinv1 := buildsInv_extend e hbn hinv
          by_cases hkeep : e.min_frontier_size ≤ (nf.size : ℚ) * e.resolution
          · rw [if_pos hkeep] at h
            exact ih _ _ _ _ _ st' h hinv1 (listChar_extend_keep e hchar hkeep)
          · rw [if_neg hkeep] at h
            exact ih _ _ _ _ _ st' h hinv1 (listChar_extend_drop e hchar hkeep)
      · rw [if_neg hnew] at h
        exact ih _ _ _ _ _ st' h hinv hchar

theorem searchStep_total (e : Env) (pose : Pose) (idx : ℕ) :
    ∀ (nbrs : List ℕ), (∀ c ∈ nbrs, c < e.ncells) →
      ∀ (q : List ℕ) (visited fflag : ℕ → Bool) (list : List Frontier)
        (builds : List (Frontier × List ℕ)),
      ∃ st', searchStep e pose idx nbrs ⟨q, visited, fflag, list, builds⟩ = some st' ∧
        st'.q.length + unsetCount e st'.visited ≤ q.length + unsetCount e visited := by
  intro nbrs
  induction nbrs with
  | nil =>
    intro _ q visited fflag list builds
    exact ⟨⟨q, visited, fflag, list, builds⟩, rfl, le_refl _⟩
  | cons nbr rest ih =>
    intro hb q visited fflag list builds
    have hnb : nbr < e.ncells := hb nbr (List.mem_cons_self nbr rest)
    have hbrest : ∀ c ∈ rest, c < e.ncells := fun c hc => hb c (List.mem_cons_of_mem nbr hc)
    simp only [searchStep]
    by_cases hv : e.map nbr ≤ e.map idx ∧ visited nbr = false
    · rw [if_pos hv]
      obtain ⟨st', h', hm⟩ := ih hbrest (q ++ [nbr]) (setFlag visited nbr) fflag list builds
      refine ⟨st', h', ?_⟩
      have hcount := unsetCount_setFlag e visited nbr hnb hv.2
      simp only [List.length_append, List.length_singleton] at hm
      omega
    · rw [if_neg hv]
      by_cases hnew : isNewFrontierCell e nbr fflag = true
      · rw [if_pos hnew]
        rcases hbn : buildNewFrontier e pose nbr (setFlag fflag nbr)
          with _ | ⟨nf, cells, fflag1⟩
        · obtain ⟨r, hr⟩ := buildNewFrontier_some e pose nbr (setFlag fflag nbr)
          rw [hbn] at hr
          exact absurd hr (by simp)
        · simp only [hbn]
          by_cases hkeep : e.min_frontier_size ≤ (nf.size : ℚ) * e.resolution
          · rw [if_pos hkeep]
            exact ih hbrest q visited fflag1
              (list ++ [{ nf with cost := frontierCost e nf }]) (builds ++ [(nf, cells)])
          · rw [if_neg hkeep]
            exact ih hbrest q visited fflag1 list (builds ++ [(nf, cells)])
      · rw [if_neg hnew]
        exact ih hbrest q visited fflag list builds

theorem searchLoop_inv (e : Env) (pose : Pose) :
    ∀ (fuel : ℕ) (q : List ℕ) (visited fflag : ℕ → Bool) (list : List Frontier)
      (builds : List (Frontier × List ℕ)) (l : List Frontier)
      (b : List (Frontier × List ℕ)),
      searchLoop e pose fuel ⟨q, visited, fflag, list, builds⟩ = some (l, b) →
      buildsInv e fflag builds → listChar e list builds →
      (∀ pr ∈ b, pr.1.points = pr.2.map (worldOf e) ∧ pr.2.Nodup) ∧
      (b.map Prod.snd).Pairwise List.Disjoint ∧ listChar e l b := by
  intro fuel
  induction fuel with
  | zero =>
    intro q visited fflag list builds l b h
    simp [searchLoop] at h
  | succ n ih =>
    intro q visited fflag list builds l b h hinv hchar
    rcases q with _ | ⟨idx, rest⟩
    · simp only [searchLoop] at h
      injection h with h1
      injection h1 with h2 h3
      subst h2
      subst h3
      exact ⟨fun pr hpr => ⟨(hinv.1 pr hpr).1, (hinv.1 pr hpr).2.1⟩, hinv.2, hchar⟩
    · simp only [searchLoop] at h
      rcases hss : searchStep e pose idx (nhood4 e idx) ⟨rest, visited, fflag, list, builds⟩
        with _ | st' <;> rw [hss] at h
      · exact absurd h (by simp)
      · obtain ⟨hinv', hchar'⟩ := searchStep_spec e pose idx _ _ _ _ _ _ st' hss hinv hchar
        obtain ⟨q1, visited1, fflag1, list1, builds1⟩ := st'
        exact ih _ _ _ _ _ l b h hinv' hchar'

theorem searchLoop_total (e : Env) (pose : Pose) :
    ∀ (fuel : ℕ) (q : List ℕ) (visited fflag : ℕ → Bool) (list : List Frontier)
      (builds : List (Frontier × List ℕ)),
      q.length + unsetCount e visited < fuel →
      ∃ r, searchLoop e pose fuel ⟨q, visited, fflag, list, builds⟩ = some r := by
  intro fuel
  induction fuel with
  | zero =>
    intro q visited fflag list builds h
    omega
  | succ n ih =>
    intro q visited fflag list builds h
    rcases q with _ | ⟨idx, rest⟩
    · exact ⟨(list, builds), rfl⟩
    · obtain ⟨st', hss, hm⟩ :=
        searchStep_total e pose idx (nhood4 e idx) (nhood4_lt e idx) rest visited fflag list builds
      obtain ⟨q1, visited1, fflag1, list1, builds1⟩ := st'
      simp only [List.length_cons] at h
      simp only at hm
      obtain ⟨r, hr⟩ := ih q1 visited1 fflag1 list1 builds1 (by omega)
      refine ⟨r, ?_⟩
      simp only [searchLoop]
      rw [hss]
      exact hr

theorem searchFrom_inv (e : Env) (pose : Pose) (l : List Frontier)
    (b : List (Frontier × List ℕ)) (h : searchFrom e pose = some (l, b)) :
    (∀ pr ∈ b, pr.1.points = pr.2.map (worldOf e) ∧ pr.2.Nodup) ∧
    (b.map Prod.snd).Pairwise List.Disjoint ∧ listChar e l b := by
  unfold searchFrom at h
  rcases hw : e.worldToMap pose.x pose.y with _ | ⟨mx, my⟩
  · rw [hw] at h
    injection h with h1
    injection h1 with h2 h3
    subst h2
    subst h3
    refine ⟨fun pr hpr => absurd hpr (List.not_mem_nil _), List.Pairwise.nil, ?_⟩
    unfold listChar
    simp
  · simp only [hw] at h
    have hinv0 : buildsInv e (fun _ => false) [] :=
      ⟨fun pr hpr => absurd hpr (List.not_mem_nil _), List.Pairwise.nil⟩
    have hchar0 : listChar e [] [] := by
      unfold listChar
      simp
    rcases hn : e.nearestFree (getIndex e mx my) with _ | clear <;> simp only [hn] at h
    · exact searchLoop_inv e pose _ _ _ _ _ _ _ _ h hinv0 hchar0
    · exact searchLoop_inv e pose _ _ _ _ _ _ _ _ h hinv0 hchar0

theorem searchFrom_total (e : Env) (pose : Pose) : ∃ r, searchFrom e pose = some r := by
  unfold searchFrom
  rcases hw : e.worldToMap pose.x pose.y with _ | ⟨mx, my⟩
  · exact ⟨([], []), rfl⟩
  · simp only [hw]
    have hcnt := unsetCount_le e (setFlag (fun _ => false) (getIndex e mx my))
    rcases hn : e.nearestFree (getIndex e mx my) with _ | clear <;> simp only [hn]
    · obtain ⟨r, hr⟩ := searchLoop_total e pose (e.ncells + 2)
        [getIndex e mx my] (setFlag (fun _ => false) (getIndex e mx my))
        (fun _ => false) [] []
        (by simp only [List.length_singleton]; omega)
      exact ⟨r, hr⟩
    · have hcnt' := unsetCount_le e (setFlag (fun _ => false) clear)
      obtain ⟨r, hr⟩ := searchLoop_total e pose (e.ncells + 2)
        [clear] (setFlag (fun _ => false) clear)
        (fun _ => false) [] []
        (by simp only [List.length_singleton]; omega)
      exact ⟨r, hr⟩

/-! ### The claims -/

set_option maxHeartbeats 2000000

/-- C1 (failing input): on the 3-by-3 grid whose centre cell 4 is the only
unknown cell, `buildNewFrontier` grows a singleton region from seed 4 and
returns it with `min_distance` still `+infinity` (`none`) and `middle`
still the zero-initialised point, which is not the world coordinate of any
member cell (the seed's coordinate is `(11, 11)`): the seed's own distance
is never tested against `min_distance`, contradicting the claim. -/
theorem buildNewFrontier_singleton_bug :
    (buildNewFrontier envC1 pose0 4 (setFlag (fun _ => false) 4)).map
        (fun r => (r.1.min_distance, r.1.middle, r.1.size, r.1.points)) =
      some (none, ⟨0, 0⟩, 1, []) ∧
    worldOf envC1 4 = ⟨11, 11⟩ ∧
    ((⟨0, 0⟩ : Point) ≠ worldOf envC1 4) := by
  refine ⟨?_, ?_, ?_⟩
  · norm_num [buildNewFrontier, buildLoop, buildStep, finalizeFrontier, isNewFrontierCell,
      nhood4, nhood8, worldOf, setFlag, distLtOpt, getIndex, Env.ncells, envC1, pose0,
      FREE_SPACE, NO_INFORMATION]
  · norm_num [worldOf, envC1]
  · norm_num [worldOf, envC1, Point.mk.injEq]

/-- C2 (counterexample): on the 1-by-5 grid of `envC2` the search
accumulates two frontiers of equal cost (`frontA` before `frontB`); the
`std::sort` postcondition also admits the swapped order `[frontB, frontA]`,
which violates stability, so the claim that equal-cost frontiers keep
discovery order is false for this call. -/
theorem searchFrom_sort_unstable :
    searchFrom envC2 pose0 = some (preC2, buildsC2) ∧
    stdSortSpec preC2 outC2 ∧
    ¬ stableTies preC2 outC2 := by
  refine ⟨?_, ⟨by decide, by unfold sortedByCost; decide⟩, ?_⟩
  · norm_num [searchFrom, searchLoop, searchStep, buildNewFrontier, buildLoop, buildStep,
      finalizeFrontier, isNewFrontierCell, nhood4, nhood8, worldOf, setFlag, distLtOpt,
      frontierCost, getIndex, Env.ncells, envC2, pose0, preC2, buildsC2, frontA, frontB,
      FREE_SPACE, NO_INFORMATION]
  · intro hst
    exact (by unfold appearsBefore; decide : ¬ appearsBefore outC2 frontA frontB)
      (hst frontA frontB (by decide) rfl (by unfold appearsBefore; decide))

/-- C2 (amended): for every call to `searchFrom`, every admissible returned
list is sorted ascending by cost (costs are pairwise non-decreasing in
sequence order); the relative order of equal-cost frontiers is not
guaranteed, since `std::sort` is not a stable sort. -/
theorem searchFrom_sorted (e : Env) (pose : Pose) (out : List Frontier)
    (hrel : searchFromResult e pose out) :
    out.Pairwise fun a b => costLe a.cost b.cost := by
  obtain ⟨pre, builds, hsf, hperm, hsort⟩ := hrel
  refine hsort.imp ?_
  intro a b hab
  rcases ha : a.cost with _ | x <;> rcases hb : b.cost with _ | y <;>
    rw [ha, hb] at hab <;> unfold costLtB at hab <;> unfold costLe
  · trivial
  · exact Bool.noConfusion hab
  · trivial
  · rw [decide_eq_false_iff_not] at hab
    exact le_of_not_lt hab

/-- Witness for the amended C2 theorem at the concrete `envC2` search. -/
theorem searchFrom_sorted_w :
    searchFromResult envC2 pose0 outC2 ∧
    outC2.Pairwise fun a b => costLe a.cost b.cost := by
  have hrel : searchFromResult envC2 pose0 outC2 := by
    refine ⟨preC2, buildsC2, ?_, by decide, by unfold sortedByCost; decide⟩
    norm_num [searchFrom, searchLoop, searchStep, buildNewFrontier, buildLoop, buildStep,
      finalizeFrontier, isNewFrontierCell, nhood4, nhood8, worldOf, setFlag, distLtOpt,
      frontierCost, getIndex, Env.ncells, envC2, pose0, preC2, buildsC2, frontA, frontB,
      FREE_SPACE, NO_INFORMATION]
  exact ⟨hrel, searchFrom_sorted envC2 pose0 outC2 hrel⟩

/-- C3: for every in-bounds cell index, `isNewFrontierCell` returns true if
and only if the cell is classified Unknown (`NO_INFORMATION`), it is not
already flagged, and at least one of its in-bounds 4-connected neighbours
is classified Free (`FREE_SPACE`); moreover every enumerated 4-connected
neighbour is in bounds. -/
theorem isNewFrontierCell_iff (e : Env) (flag : ℕ → Bool) (idx : ℕ)
    (hidx : idx < e.ncells) :
    (isNewFrontierCell e idx flag = true ↔
      e.map idx = NO_INFORMATION ∧ flag idx = false ∧
        ∃ nbr ∈ nhood4 e idx, e.map nbr = FREE_SPACE) ∧
    ∀ nbr ∈ nhood4 e idx, nbr < e.ncells := by
  refine ⟨?_, nhood4_lt e idx⟩
  unfold isNewFrontierCell
  split_ifs with hc
  · simp only [false_iff]
    rintro ⟨h1, h2, _⟩
    rcases hc with hc | hc
    · exact hc h1
    · rw [h2] at hc
      exact Bool.noConfusion hc
  · push_neg at hc
    obtain ⟨h1, h2⟩ := hc
    simp only [ne_eq, Bool.not_eq_true] at h2
    simp [List.any_eq_true, h1, h2, beq_iff_eq]

/-- Witness for C3 at cell 0 of the concrete grid `envC2`. -/
theorem isNewFrontierCell_iff_w :
    (0 : ℕ) < envC2.ncells ∧
    ((isNewFrontierCell envC2 0 (fun _ => false) = true ↔
      envC2.map 0 = NO_INFORMATION ∧ (fun _ => false) 0 = false ∧
        ∃ nbr ∈ nhood4 envC2 0, envC2.map nbr = FREE_SPACE) ∧
     ∀ nbr ∈ nhood4 envC2 0, nbr < envC2.ncells) :=
  ⟨by norm_num [envC2, Env.ncells],
   isNewFrontierCell_iff envC2 (fun _ => false) 0 (by norm_num [envC2, Env.ncells])⟩

/-- C4: every Frontier in any admissible returned list meets the minimum
physical size, and the accumulated list is exactly the built regions that
met the minimum, each with its cost assigned — regions below the minimum
are built (they appear among the ghost build records) but never appended
and never scored. -/
theorem searchFrom_min_size (e : Env) (pose : Pose) (l out : List Frontier)
    (builds : List (Frontier × List ℕ))
    (h : searchFrom e pose = some (l, builds)) (hsort : stdSortSpec l out) :
    (∀ f ∈ out, e.min_frontier_size ≤ (f.size : ℚ) * e.resolution) ∧
    l = (builds.filter fun pr =>
        decide (e.min_frontier_size ≤ (pr.1.size : ℚ) * e.resolution)).map
      fun pr => { pr.1 with cost := frontierCost e pr.1 } := by
  have hchar := (searchFrom_inv e pose l builds h).2.2
  refine ⟨?_, hchar⟩
  intro f hf
  have hmem : f ∈ l := hsort.1.mem_iff.mpr hf
  rw [hchar] at hmem
  rw [List.mem_map] at hmem
  obtain ⟨pr, hpr, rfl⟩ := hmem
  rw [List.mem_filter] at hpr
  have := hpr.2
  rw [decide_eq_true_eq] at this
  exact this

/-- Witness for C4 at the concrete `envC6` search. -/
theorem searchFrom_min_size_w :
    searchFrom envC6 pose0 = some (listC6, buildsC6) ∧
    stdSortSpec listC6 listC6 ∧
    (∀ f ∈ listC6, envC6.min_frontier_size ≤ (f.size : ℚ) * envC6.resolution) ∧
    listC6 = (buildsC6.filter fun pr =>
        decide (envC6.min_frontier_size ≤ (pr.1.size : ℚ) * envC6.resolution)).map
      fun pr => { pr.1 with cost := frontierCost envC6 pr.1 } := by
  have h : searchFrom envC6 pose0 = some (listC6, buildsC6) := by
    norm_num [searchFrom, searchLoop, searchStep, buildNewFrontier, buildLoop, buildStep,
      finalizeFrontier, isNewFrontierCell, nhood4, nhood8, worldOf, setFlag, distLtOpt,
      frontierCost, getIndex, Env.ncells, envC6, envC5, pose0, listC6, buildsC6, keptC6,
      frontC6, FREE_SPACE, NO_INFORMATION]
  have hsort : stdSortSpec listC6 listC6 :=
    ⟨List.Perm.refl _, by unfold sortedByCost; decide⟩
  have := searchFrom_min_size envC6 pose0 listC6 listC6 buildsC6 h hsort
  exact ⟨h, hsort, this.1, this.2⟩

/-- C5 (counterexample): with resolution 1 and `max_frontier_size = 1/2`
(positive but below one cell's size), the region grown from seed cell 1 of
the `envC5` grid still reaches size 2, and `2 * resolution <
max_frontier_size + resolution` fails: the frontier exceeds the claimed
one-cell overshoot bound. -/
theorem buildNewFrontier_overshoot :
    (buildNewFrontier envC5 pose0 1 (setFlag (fun _ => false) 1)).map
        (fun r => r.1.size) = some 2 ∧
    0 < envC5.max_frontier_size ∧
    ¬ ((2 : ℚ) * envC5.resolution < envC5.max_frontier_size + envC5.resolution) := by
  refine ⟨?_, by norm_num [envC5], by norm_num [envC5]⟩
  norm_num [buildNewFrontier, buildLoop, buildStep, finalizeFrontier, isNewFrontierCell,
    nhood4, nhood8, worldOf, setFlag, distLtOpt, getIndex, Env.ncells, envC5, pose0,
    FREE_SPACE, NO_INFORMATION]

/-- C5 (amended): if `max_frontier_size > 0` (and the resolution is
non-negative), every Frontier produced by `buildNewFrontier` satisfies
`size * resolution < max_frontier_size + resolution` or has `size ≤ 2` —
a second cell can always be added before the first size check fires, so
the one-cell overshoot bound only holds from size 3 upward; if
`max_frontier_size ≤ 0` the region size is unbounded by this mechanism. -/
theorem buildNewFrontier_max_size (e : Env) (pose : Pose) (c : ℕ)
    (flag : ℕ → Bool) (f : Frontier)
    (hres : 0 ≤ e.resolution) (hmax : 0 < e.max_frontier_size)
    (h : (buildNewFrontier e pose c flag).map (fun r => r.1) = some f) :
    (f.size : ℚ) * e.resolution < e.max_frontier_size + e.resolution ∨ f.size ≤ 2 := by
  rcases hb : buildNewFrontier e pose c flag with _ | ⟨f1, cells1, flag1⟩ <;> rw [hb] at h
  · exact absurd h (by simp)
  · rw [Option.map_some'] at h
    injection h with h1
    subst h1
    exact ((buildNewFrontier_spec e pose c flag hb).2.2.2.2.2 hres) hmax

/-- Witness for the amended C5 theorem at the concrete `envC5` build. -/
theorem buildNewFrontier_max_size_w :
    (0 : ℚ) ≤ envC5.resolution ∧ 0 < envC5.max_frontier_size ∧
    (buildNewFrontier envC5 pose0 1 (setFlag (fun _ => false) 1)).map
        (fun r => r.1) = some frontC6 ∧
    ((frontC6.size : ℚ) * envC5.resolution <
        envC5.max_frontier_size + envC5.resolution ∨ frontC6.size ≤ 2) := by
  have h : (buildNewFrontier envC5 pose0 1 (setFlag (fun _ => false) 1)).map
      (fun r => r.1) = some frontC6 := by
    norm_num [buildNewFrontier, buildLoop, buildStep, finalizeFrontier, isNewFrontierCell,
      nhood4, nhood8, worldOf, setFlag, distLtOpt, getIndex, Env.ncells, envC5, pose0,
      frontC6, FREE_SPACE, NO_INFORMATION]
  exact ⟨by norm_num [envC5], by norm_num [envC5], h,
    buildNewFrontier_max_size envC5 pose0 1 _ frontC6
      (by norm_num [envC5]) (by norm_num [envC5]) h⟩

/-- C6: every Frontier that passes the minimum-size filter has its assigned
cost equal to `orientation_scale * angular_distance + potential_scale *
min_distance * resolution - gain_scale * size * resolution` (stated for the
finite `min_distance` the formula refers to). -/
theorem searchFrom_cost_formula (e : Env) (pose : Pose) (out : List Frontier)
    (f : Frontier) (d : ℚ) (hrel : searchFromResult e pose out) (hf : f ∈ out)
    (hd : f.min_distance = some d) :
    f.cost = some (e.orientation_scale * f.angular_distance +
      e.potential_scale * d * e.resolution -
      e.gain_scale * (f.size : ℚ) * e.resolution) := by
  obtain ⟨pre, builds, hsf, hperm, hsort⟩ := hrel
  have hmem : f ∈ pre := hperm.mem_iff.mpr hf
  have hchar := (searchFrom_inv e pose pre builds hsf).2.2
  rw [hchar] at hmem
  rw [List.mem_map] at hmem
  obtain ⟨pr, hpr, rfl⟩ := hmem
  simp only at hd ⊢
  unfold frontierCost
  rw [hd]

/-- Witness for C6 at the concrete `envC6` search: the returned frontier
has `min_distance = 5` and cost `1 * 0 + 1 * 5 * 1 - 1 * 2 * 1 = 3`. -/
theorem searchFrom_cost_formula_w :
    searchFromResult envC6 pose0 listC6 ∧ keptC6 ∈ listC6 ∧
    keptC6.min_distance = some 5 ∧
    keptC6.cost = some (envC6.orientation_scale * keptC6.angular_distance +
      envC6.potential_scale * 5 * envC6.resolution -
      envC6.gain_scale * (keptC6.size : ℚ) * envC6.resolution) := by
  have hrel : searchFromResult envC6 pose0 listC6 := by
    refine ⟨listC6, buildsC6, ?_, List.Perm.refl _, by unfold sortedByCost; decide⟩
    norm_num [searchFrom, searchLoop, searchStep, buildNewFrontier, buildLoop, buildStep,
      finalizeFrontier, isNewFrontierCell, nhood4, nhood8, worldOf, setFlag, distLtOpt,
      frontierCost, getIndex, Env.ncells, envC6, envC5, pose0, listC6, buildsC6, keptC6,
      frontC6, FREE_SPACE, NO_INFORMATION]
  exact ⟨hrel, List.mem_singleton_self _, rfl,
    searchFrom_cost_formula envC6 pose0 listC6 keptC6 5 hrel
      (List.mem_singleton_self _) rfl⟩

/-- C7: whenever the pose's world position does not map into grid bounds,
`searchFrom` aborts before any traversal and returns the empty list (with
no build records), and every admissible sorted result is empty as well. -/
theorem searchFrom_out_of_bounds (e : Env) (pose : Pose)
    (h : e.worldToMap pose.x pose.y = none) :
    searchFrom e pose = some ([], []) ∧
    ∀ out, searchFromResult e pose out → out = [] := by
  have h0 : searchFrom e pose = some ([], []) := by
    unfold searchFrom
    rw [h]
  refine ⟨h0, ?_⟩
  rintro out ⟨pre, builds, hsf, hperm, _⟩
  rw [h0] at hsf
  injection hsf with h1
  injection h1 with h2 h3
  subst h2
  exact (hperm.symm).eq_nil

/-- Witness for C7 at the concrete environment `envC7`, whose world-to-map
conversion always fails. -/
theorem searchFrom_out_of_bounds_w :
    envC7.worldToMap pose0.x pose0.y = none ∧
    (searchFrom envC7 pose0 = some ([], []) ∧
     ∀ out, searchFromResult envC7 pose0 out → out = []) :=
  ⟨rfl, searchFrom_out_of_bounds envC7 pose0 rfl⟩

/-- C8: for every in-bounds pose for which the nearest-free-cell finder
reports no match, `searchFrom` does not fail: it runs the grid-wide BFS
seeded at the raw pose cell with that cell marked visited, and the call
returns normally (the loop provably drains within its fuel). -/
theorem searchFrom_degraded (e : Env) (pose : Pose) (mx my : ℕ)
    (hw : e.worldToMap pose.x pose.y = some (mx, my))
    (hn : e.nearestFree (getIndex e mx my) = none) :
    searchFrom e pose = searchLoop e pose (e.ncells + 2)
      ⟨[getIndex e mx my], setFlag (fun _ => false) (getIndex e mx my),
        fun _ => false, [], []⟩ ∧
    ∃ r, searchFrom e pose = some r := by
  constructor
  · unfold searchFrom
    simp only [hw, hn]
  · exact searchFrom_total e pose

/-- Witness for C8 at the concrete environment `envC8` (a single
lethal-obstacle cell with no free cell anywhere). -/
theorem searchFrom_degraded_w :
    envC8.worldToMap pose0.x pose0.y = some (0, 0) ∧
    envC8.nearestFree (getIndex envC8 0 0) = none ∧
    (searchFrom envC8 pose0 = searchLoop envC8 pose0 (envC8.ncells + 2)
      ⟨[getIndex envC8 0 0], setFlag (fun _ => false) (getIndex envC8 0 0),
        fun _ => false, [], []⟩ ∧
     ∃ r, searchFrom envC8 pose0 = some r) :=
  ⟨rfl, rfl, searchFrom_degraded envC8 pose0 0 0 rfl rfl⟩

/-- C9: every Frontier built by `buildNewFrontier` satisfies
`size = points.length + 1`: the seed is counted but never pushed into
`points` (when the seed is flagged before the call, as `searchFrom` always
does, its cell is not among the pushed cells), and every other member cell
is pushed exactly once (the pushed cells are distinct and `points` is
exactly their world coordinates in push order). -/
theorem buildNewFrontier_size_points (e : Env) (pose : Pose) (c : ℕ)
    (flag : ℕ → Bool) (f : Frontier) (cells : List ℕ)
    (h : (buildNewFrontier e pose c flag).map (fun r => (r.1, r.2.1)) = some (f, cells)) :
    f.size = f.points.length + 1 ∧
    f.points = cells.map (worldOf e) ∧
    cells.Nodup ∧
    (flag c = true → c ∉ cells) := by
  rcases hb : buildNewFrontier e pose c flag with _ | ⟨f1, cells1, flag1⟩ <;> rw [hb] at h
  · exact absurd h (by simp)
  · rw [Option.map_some'] at h
    injection h with h1
    injection h1 with h2 h3
    subst h2
    subst h3
    obtain ⟨hp, hs, hnd, hfr, _, _⟩ := buildNewFrontier_spec e pose c flag hb
    refine ⟨?_, hp, hnd, ?_⟩
    · rw [hs, hp, List.length_map]
    · intro hfc hmem
      rw [hfr c hmem] at hfc
      exact Bool.noConfusion hfc

/-- Witness for C9 at the concrete `envC6` build from seed 1. -/
theorem buildNewFrontier_size_points_w :
    (buildNewFrontier envC6 pose0 1 (setFlag (fun _ => false) 1)).map
        (fun r => (r.1, r.2.1)) = some (frontC6, [2]) ∧
    (frontC6.size = frontC6.points.length + 1 ∧
     frontC6.points = [2].map (worldOf envC6) ∧
     ([2] : List ℕ).Nodup ∧
     (setFlag (fun _ => false) 1 1 = true → 1 ∉ ([2] : List ℕ))) := by
  have h : (buildNewFrontier envC6 pose0 1 (setFlag (fun _ => false) 1)).map
      (fun r => (r.1, r.2.1)) = some (frontC6, [2]) := by
    norm_num [buildNewFrontier, buildLoop, buildStep, finalizeFrontier, isNewFrontierCell,
      nhood4, nhood8, worldOf, setFlag, distLtOpt, getIndex, Env.ncells, envC6, envC5,
      pose0, frontC6, FREE_SPACE, NO_INFORMATION]
  exact ⟨h, buildNewFrontier_size_points envC6 pose0 1 _ frontC6 [2] h⟩

/-- C10: within a single `searchFrom` call the built frontier regions are
pairwise disjoint at the cell level and duplicate-free: every build record
lists the distinct cells whose world coordinates form its `points` (in push
order), and the cell lists of distinct builds share no cell — the shared
frontier flag is set before each append and never reset, and
`isNewFrontierCell` rejects flagged cells. -/
theorem searchFrom_disjoint (e : Env) (pose : Pose) (l : List Frontier)
    (builds : List (Frontier × List ℕ))
    (h : searchFrom e pose = some (l, builds)) :
    (∀ pr ∈ builds, pr.1.points = pr.2.map (worldOf e) ∧ pr.2.Nodup) ∧
    (builds.map Prod.snd).Pairwise List.Disjoint := by
  have := searchFrom_inv e pose l builds h
  exact ⟨this.1, this.2.1⟩

/-- Witness for C10 at the concrete `envC2` search. -/
theorem searchFrom_disjoint_w :
    searchFrom envC2 pose0 = some (preC2, buildsC2) ∧
    ((∀ pr ∈ buildsC2, pr.1.points = pr.2.map (worldOf envC2) ∧ pr.2.Nodup) ∧
     (buildsC2.map Prod.snd).Pairwise List.Disjoint) := by
  have h : searchFrom envC2 pose0 = some (preC2, buildsC2) := by
    norm_num [searchFrom, searchLoop, searchStep, buildNewFrontier, buildLoop, buildStep,
      finalizeFrontier, isNewFrontierCell, nhood4, nhood8, worldOf, setFlag, distLtOpt,
      frontierCost, getIndex, Env.ncells, envC2, pose0, preC2, buildsC2, frontA, frontB,
      FREE_SPACE, NO_INFORMATION]
  exact ⟨h, searchFrom_disjoint envC2 pose0 preC2 buildsC2 h⟩

end FrontierExploration
